import Mathlib

/-
Verification of the CUBDLRNN tensor / reduction-kernel library.

The development shallowly embeds the two source files:
  * src/src/math/math.cu : the kernel suite (warpReduce, warpReduceAll,
    blockReduce, blockReduceAtomicVectorized, blockScatter, softmaxKernel)
    and the frnn::Tensor class (constructors, size(dim), the variadic
    multi-index operator()).
  * src/src/util/errors.hpp : error-printing declarations only (no logic).

Machine scalars are modelled with Nat (sizes, indices) and Int or Rat
(element data; the source is generic over the element type).  Logging to
std::cout / std::cerr carries no data flow and is not modelled.
-/

-- ==================== Kernel suite: warp level ====================

/-- CUDA warpSize on all hardware targeted by the source (see the shfl loop
bounds `warpSize / 2`). -/
def warpSize : Nat := 32

/-- Offsets taken by the loop `for (offset = start; offset > 0; offset /= 2)`.
Fuel-based so that the kernel can evaluate it; fuel `o` suffices since the
value halves each iteration. -/
def shflOffsetsAux : Nat → Nat → List Nat
  | 0, _ => []
  | fuel + 1, o => if o = 0 then [] else o :: shflOffsetsAux fuel (o / 2)

/-- The offset sequence of the shuffle loops in `warpReduce`/`warpReduceAll`. -/
def shflOffsets (o : Nat) : List Nat := shflOffsetsAux o o

/-- One `val += __shfl_down(val, o)` step over a warp ensemble: `v` maps a
lane id to its current value, `A` is the number of active lanes.
`__shfl_down` with a source lane out of range returns the calling lane's own
value; for a full warp (`A = 32`) this is exactly the hardware semantics,
for a partial warp the hardware leaves the value undefined and this model
picks the same own-value convention (no theorem below depends on a partial
warp's value: the source discards them, see `blockReduce`). -/
def shflStep (A o : Nat) (v : Nat → Int) : Nat → Int :=
  fun l => v l + if l + o < A then v (l + o) else v l

/-- One `val += __shfl_xor(val, o)` butterfly step (`warpReduceAll`). The
source lane is `l ^^^ o`, which for a full warp is always in range. -/
def shflXorStep (A o : Nat) (v : Nat → Int) : Nat → Int :=
  fun l => v l + if l ^^^ o < A then v (l ^^^ o) else v l

/-- The loop `for (offset = ...; offset > 0; offset /= 2) val += __shfl_down`. -/
def shflDownSeq (A : Nat) (offs : List Nat) (v : Nat → Int) : Nat → Int :=
  match offs with
  | [] => v
  | o :: rest => shflDownSeq A rest (shflStep A o v)

/-- The loop `for (offset = ...; offset > 0; offset /= 2) val += __shfl_xor`. -/
def shflXorSeq (A : Nat) (offs : List Nat) (v : Nat → Int) : Nat → Int :=
  match offs with
  | [] => v
  | o :: rest => shflXorSeq A rest (shflXorStep A o v)

/-- math.cu `warpReduce`: down-shift reduction sum within a warp of `A`
active lanes; returns the per-lane values after the loop. -/
def warpReduce (A : Nat) (v : Nat → Int) : Nat → Int :=
  shflDownSeq A (shflOffsets (warpSize / 2)) v

/-- math.cu `warpReduceAll`: butterfly (xor) reduction sum within a warp. -/
def warpReduceAll (A : Nat) (v : Nat → Int) : Nat → Int :=
  shflXorSeq A (shflOffsets (warpSize / 2)) v

-- ==================== Kernel suite: block level ====================

/-- math.cu `blockReduce`, as a map from the per-thread input values `p`
(indexed by `threadIdx.x`, block size `L`) to the per-thread values after
the call.  Stage 1: each warp reduces and its lane 0 writes `shared[wid]`.
Stage 2: `val = (threadIdx.x < L / warpSize) ? shared[lane] : 0`, and warp 0
reduces those values once more.  Warp `w` has `min warpSize (L - w*warpSize)`
active lanes.  For the stage-2 warp-0 ensemble the guard `threadIdx.x < L /
warpSize` coincides with `lane < L / warpSize` because warp 0's threads have
`lane = threadIdx.x`; this is faithful whenever `L / warpSize ≤ warpSize`,
i.e. for every launch the hardware accepts (`L ≤ 1024`). -/
def blockReduce (L : Nat) (p : Nat → Int) : Nat → Int :=
  fun tid =>
    let lane := tid % warpSize
    let wid := tid / warpSize
    let shared := fun (w : Nat) =>
      warpReduce (min warpSize (L - w * warpSize)) (fun l => p (w * warpSize + l)) 0
    if wid = 0 then
      warpReduce (min warpSize L) (fun l => if l < L / warpSize then shared l else 0) lane
    else
      if tid < L / warpSize then shared lane else 0

/-- The strided vectorized loop of `blockReduceAtomicVectorized`:
`for (i = idx; i < N/2; i += T) sum += in[2i] + in[2i+1]` where `T =
blockDim.x * gridDim.x`.  Fuel-based (fuel `N/2` suffices when `T ≥ 1`). -/
def pairLoopAux (inp : Nat → Int) (half T : Nat) : Nat → Nat → Int
  | 0, _ => 0
  | fuel + 1, i =>
      if i < half then inp (2 * i) + inp (2 * i + 1) + pairLoopAux inp half T fuel (i + T)
      else 0

/-- Per-thread accumulation phase of `blockReduceAtomicVectorized` for the
thread with global index `idx` out of `T` total threads: the vectorized
strided loop plus the scalar remainder `if (idx + N/2*2 < N) sum += in[...]`. -/
def threadVecSum (inp : Nat → Int) (N T idx : Nat) : Int :=
  pairLoopAux inp (N / 2) T (N / 2) idx
    + (if idx + N / 2 * 2 < N then inp (idx + N / 2 * 2) else 0)

/-- math.cu `blockReduceAtomicVectorized` launched with `B` blocks of `L`
lanes over input `inp` of length `N`, with `*out` zero-initialized by the
caller: each block's thread 0 does `atomicAdd(out, sum)`, so the final value
of `*out` is the sum over blocks of the thread-0 result of `blockReduce`
(atomic adds commute, so the accumulation order is irrelevant). -/
def blockReduceAtomicVectorized (inp : Nat → Int) (N B L : Nat) : Int :=
  ∑ b in Finset.range B, blockReduce L (fun t => threadVecSum inp N (B * L) (b * L + t)) 0

/-- math.cu `blockScatter` launched with `B` blocks of `L` lanes on a buffer
`data` of length `N`, as the map from the old buffer contents to the new.
Element `i` belongs to block `i / L`; the block's thread 0 loads `shared[0]`
from `data[idx]` when `blockIdx.x < blockDim.x` and from
`data[idx - blockDim.x * blockIdx.x]` otherwise (with `idx = blockIdx.x *
blockDim.x`, that subtraction is `b*L - L*b = 0`); after the barrier every
thread with `idx < N` stores `shared[0]`.  Blocks write disjoint index
ranges, and the only cross-block access (`data[0]`) is overwritten by block 0
with its own unmodified value, so the pre-kernel buffer determines the
result. -/
def blockScatter (data : Nat → Int) (N B L : Nat) : Nat → Int :=
  fun i =>
    if i < B * L ∧ i < N then
      if i / L < L then data (i / L * L) else data (i / L * L - L * (i / L))
    else data i

/-- A single thread of math.cu `softmaxKernel`:
`if (idx < N) out[idx] = f(in[idx]) / out[idx]`. -/
def softmaxThread (inp : Nat → Rat) (N : Nat) (f : Rat → Rat) (s : Nat → Rat) (idx : Nat) :
    Nat → Rat :=
  if idx < N then (fun j => if j = idx then f (inp idx) / s idx else s j) else s

/-- math.cu `softmaxKernel` launched with `T` threads: every thread touches
only its own index, so the parallel execution equals any serialization. -/
def softmaxKernel (inp out : Nat → Rat) (N T : Nat) (f : Rat → Rat) : Nat → Rat :=
  (List.range T).foldl (softmaxThread inp N f) out

-- ==================== frnn::Tensor ====================

/-- frnn::Tensor<T, R>: flat element buffer `_data` plus the per-dimension
sizes `_dimensions`.  The mutable offset-calculation scratch `_counter` /
`_offset` is threaded explicitly through `tensorOp` below instead of being
stored, so all of its intermediate states remain visible to the theorems. -/
structure Tensor (α : Type) (R : Nat) where
  data : List α
  dims : List Nat

/-- Default constructor: `_data(0), _dimensions(R)` — empty buffer and `R`
zero dimension sizes. -/
def Tensor.mkDefault (α : Type) (R : Nat) : Tensor α R :=
  ⟨[], List.replicate R 0⟩

/-- Whether a Tensor satisfies the documented invariant
`buffer.length == product(dimensions) ∧ dimensions.length == Rank`. -/
def TensorInv {α : Type} {R : Nat} (t : Tensor α R) : Prop :=
  t.data.length = t.dims.prod ∧ t.dims.length = R

/-- Initializer-list constructor: allocates `product(dims)` value-initialized
elements (`z` models a value-initialized `T`) and records the dimension list.
Modelled from the spec: the `ASSERT(dimensions.size(), ==, R)` macro comes
from tensor_exceptions.h, which is not present under src/; per spec §4.2 the
construction "Fails (construction-time contract violation)" on a length
mismatch, modelled as `none`. -/
def Tensor.fromDims (α : Type) (R : Nat) (z : α) (ds : List Nat) : Option (Tensor α R) :=
  if ds.length = R then some ⟨List.replicate ds.prod z, ds⟩ else none

/-- Modelled from the spec: the TensorExpression protocol is declared in
tensor_expressions.h, which is not present under src/; per spec §3 an
expression offers `size()`, `dimSizes()` and element read access. -/
structure TensorExpr (α : Type) where
  size : Nat
  dimSizes : List Nat
  elem : Nat → α

/-- Expression constructor: `_dimensions(expression.dimSizes())`, then
`_data.resize(expr.size())` and `_data[i] = expr[i]` for every `i`. -/
def Tensor.fromExpr (α : Type) (R : Nat) (e : TensorExpr α) : Tensor α R :=
  ⟨(List.range e.size).map e.elem, e.dimSizes⟩

/-- Buffer-plus-dimensions constructor: adopts both vectors.
Modelled from the spec: the two `ASSERT`s (dimension count equals the rank,
buffer length equals the product of the dimension sizes) come from the
missing tensor_exceptions.h header; per spec §4.2 the construction fails on
either mismatch, modelled as `none`. -/
def Tensor.fromData (α : Type) (R : Nat) (ds : List Nat) (d : List α) : Option (Tensor α R) :=
  if ds.length = R ∧ d.length = ds.prod then some ⟨d, ds⟩ else none

/-- Writing one element through the reference returned by `operator[]` /
`operator()` — the only mutation the class exposes besides construction. -/
def Tensor.setFlat {α : Type} {R : Nat} (t : Tensor α R) (i : Nat) (v : α) : Tensor α R :=
  ⟨t.data.set i v, t.dims⟩

/-- Method `size(const int dim)` of the Tensor: when `dim >= R` it throws
`TensorOutOfRange`, the catch prints and returns 0; otherwise it returns
`_dimensions[dim]`. -/
def Tensor.size {α : Type} {R : Nat} (t : Tensor α R) (dim : Nat) : Nat :=
  if R ≤ dim then 0 else t.dims.getD dim 0

/-- The variadic `operator()` chain (both the mutable and the const overload
have identical data flow; the const one mutates through `const_cast`).
State `(counter, offset)` mirrors `_counter` / `_offset`; the result triple
is `(counter', offset', flat index of the element returned)`.  Cases:
  * `[idx]`  — the terminating overload: range check against
    `_dimensions[_counter]`, then (after a logged-but-ignored
    `TensorInvalidArguments` check when `_counter == 0`)
    `_offset += prod(dims[0 .. R-2]) * idx; _counter = 0; return _data[_offset]`.
  * `idx :: …` — the variadic overload: range check, then if `_counter++`
    was 0 a `TensorInvalidArguments` check against the rank (on failure the
    catch returns `_data[0]` with `_counter` already incremented), else
    `_offset += prod(dims[0 .. R - num_args - 2]) * idx`, and recurse.
A range violation prints, sets `_counter = 0`, and returns `_data[0]`. -/
def tensorOp (dims : List Nat) (R : Nat) : Nat → Nat → List Nat → Nat × Nat × Nat
  | counter, offset, [] => (counter, offset, 0)
  | counter, offset, [idx] =>
      if dims.getD counter 0 ≤ idx then (0, offset, 0)
      else
        let offset2 := offset + (dims.take (dims.length - 1)).prod * idx
        (0, offset2, offset2)
  | counter, offset, idx :: idx2 :: rest =>
      if dims.getD counter 0 ≤ idx then (0, offset, 0)
      else if counter = 0 then
        if rest.length + 2 ≠ R then (counter + 1, offset, 0)
        else tensorOp dims R (counter + 1) idx (idx2 :: rest)
      else
        let offset2 := offset + (dims.take (dims.length - (rest.length + 1) - 1)).prod * idx
        tensorOp dims R (counter + 1) offset2 (idx2 :: rest)

/-- The element a complete multi-index access returns, starting from the
constructed state `_counter = 0`, `_offset = 0`. -/
def Tensor.elemAccess {α : Type} {R : Nat} [Inhabited α] (t : Tensor α R) (idx : List Nat) : α :=
  t.data.getD (tensorOp t.dims R 0 0 idx).2.2 default

/-- Partial column-major offset: the contribution of the indices `rest`
consumed from dimension `d` onward, `Σ_j rest[j] * Π_{k < d+j} dims[k]`. -/
def partOffset (dims : List Nat) (d : Nat) (rest : List Nat) : Nat :=
  ∑ j in Finset.range rest.length, rest.getD j 0 * (dims.take (d + j)).prod

/-- Column-major flat offset: `stride[d] = Π_{k < d} dims[k]` (stride of the
first dimension is 1). -/
def colMajorOffset (dims idx : List Nat) : Nat := partOffset dims 0 idx

/-- Row-major flat offset as the spec words it: `stride[d] =
Π_{k = d+1}^{R-1} dims[k]` (stride of the last dimension is 1).  Stated from
the spec only, for comparison against the source's `tensorOp`. -/
def rowMajorOffset (dims idx : List Nat) : Nat :=
  ∑ j in Finset.range idx.length, idx.getD j 0 * (dims.drop (j + 1)).prod


-- ==================== Shared helper lemmas ====================

lemma shflOffsets_sixteen : shflOffsets (warpSize / 2) = [16, 8, 4, 2, 1] := rfl

lemma interleave (g : Nat → Int) (m : Nat) :
    ∑ k in Finset.range (2 * m), g k
      = (∑ k in Finset.range m, g (2 * k)) + ∑ k in Finset.range m, g (2 * k + 1) := by
  induction m with
  | zero => simp
  | succ m ih =>
      rw [show 2 * (m + 1) = (2 * m + 1) + 1 from by ring]
      rw [Finset.sum_range_succ, Finset.sum_range_succ, ih,
          Finset.sum_range_succ, Finset.sum_range_succ]
      ring

lemma shflStepSum (v s : Nat → Int) (d m : Nat) (hd : 0 < d) (h2d : 2 * d ≤ 32)
    (hs : ∀ j, j < 2 * d → s j = ∑ k in Finset.range m, v (j + 2 * d * k)) :
    ∀ j, j < d → shflStep 32 d s j = ∑ k in Finset.range (2 * m), v (j + d * k) := by
  intro j hj
  rw [shflStep]
  rw [if_pos (by omega)]
  rw [hs j (by omega), hs (j + d) (by omega)]
  rw [interleave (fun k => v (j + d * k)) m]
  congr 1 <;> (apply Finset.sum_congr rfl; intro k _; congr 1; ring)

lemma warpReduce_lane0 (v : Nat → Int) :
    warpReduce 32 v 0 = ∑ l in Finset.range 32, v l := by
  have hseq : warpReduce 32 v
      = shflStep 32 1 (shflStep 32 2 (shflStep 32 4 (shflStep 32 8 (shflStep 32 16 v)))) := rfl
  have h0 : ∀ j, j < 2 * 16 → v j = ∑ k in Finset.range 1, v (j + 2 * 16 * k) := by
    intro j _; simp
  have h16 := shflStepSum v v 16 1 (by norm_num) (by norm_num) h0
  have h8 := shflStepSum v (shflStep 32 16 v) 8 2 (by norm_num) (by norm_num)
    (fun j hj => h16 j (by omega))
  have h4 := shflStepSum v (shflStep 32 8 (shflStep 32 16 v)) 4 4 (by norm_num) (by norm_num)
    (fun j hj => h8 j (by omega))
  have h2 := shflStepSum v (shflStep 32 4 (shflStep 32 8 (shflStep 32 16 v))) 2 8
    (by norm_num) (by norm_num) (fun j hj => h4 j (by omega))
  have h1 := shflStepSum v (shflStep 32 2 (shflStep 32 4 (shflStep 32 8 (shflStep 32 16 v)))) 1 16
    (by norm_num) (by norm_num) (fun j hj => h2 j (by omega))
  rw [hseq, h1 0 (by norm_num)]
  apply Finset.sum_congr rfl
  intro k _
  simp

lemma xorSwapFact (d : Nat) (hd : d = 1 ∨ d = 2 ∨ d = 4 ∨ d = 8 ∨ d = 16) :
    ∀ l, l < 32 → l ^^^ d < 32 ∧
      ((l % (2 * d) = l % d ∧ (l ^^^ d) % (2 * d) = l % d + d) ∨
       (l % (2 * d) = l % d + d ∧ (l ^^^ d) % (2 * d) = l % d)) := by
  intro l hl
  rcases hd with h | h | h | h | h <;> subst h <;> interval_cases l <;> decide

lemma shflXorStepSum (v s : Nat → Int) (d m : Nat)
    (hd : d = 1 ∨ d = 2 ∨ d = 4 ∨ d = 8 ∨ d = 16)
    (hs : ∀ j, j < 32 → s j = ∑ k in Finset.range m, v (j % (2 * d) + 2 * d * k)) :
    ∀ j, j < 32 → shflXorStep 32 d s j = ∑ k in Finset.range (2 * m), v (j % d + d * k) := by
  intro j hj
  obtain ⟨hlt, hcases⟩ := xorSwapFact d hd j hj
  rw [shflXorStep]
  rw [if_pos hlt]
  rw [hs j hj, hs (j ^^^ d) hlt]
  rw [interleave (fun k => v (j % d + d * k)) m]
  rcases hcases with ⟨e1, e2⟩ | ⟨e1, e2⟩
  · rw [e1, e2]
    congr 1 <;> (apply Finset.sum_congr rfl; intro k _; congr 1; ring)
  · rw [e1, e2, add_comm]
    congr 1 <;> (apply Finset.sum_congr rfl; intro k _; congr 1; ring)

lemma warpReduceAll_lane (v : Nat → Int) (l : Nat) (hl : l < 32) :
    warpReduceAll 32 v l = ∑ j in Finset.range 32, v j := by
  have hseq : warpReduceAll 32 v
      = shflXorStep 32 1 (shflXorStep 32 2 (shflXorStep 32 4
          (shflXorStep 32 8 (shflXorStep 32 16 v)))) := rfl
  have h0 : ∀ j, j < 32 → v j = ∑ k in Finset.range 1, v (j % (2 * 16) + 2 * 16 * k) := by
    intro j hj
    simp [Nat.mod_eq_of_lt hj]
  have h16 := shflXorStepSum v v 16 1 (by tauto) h0
  have h8 := shflXorStepSum v (shflXorStep 32 16 v) 8 2 (by tauto)
    (fun j hj => h16 j hj)
  have h4 := shflXorStepSum v (shflXorStep 32 8 (shflXorStep 32 16 v)) 4 4 (by tauto)
    (fun j hj => h8 j hj)
  have h2 := shflXorStepSum v (shflXorStep 32 4 (shflXorStep 32 8 (shflXorStep 32 16 v))) 2 8
    (by tauto) (fun j hj => h4 j hj)
  have h1 := shflXorStepSum v
    (shflXorStep 32 2 (shflXorStep 32 4 (shflXorStep 32 8 (shflXorStep 32 16 v)))) 1 16
    (by tauto) (fun j hj => h2 j hj)
  rw [hseq, h1 l hl]
  apply Finset.sum_congr rfl
  intro k _
  simp [Nat.mod_one]

lemma sum_range_mul_chunks (g : Nat → Int) (W k : Nat) :
    ∑ w in Finset.range W, ∑ l in Finset.range k, g (w * k + l)
      = ∑ t in Finset.range (W * k), g t := by
  induction W with
  | zero => simp
  | succ W ih =>
      rw [Finset.sum_range_succ, ih, show (W + 1) * k = W * k + k from by ring,
          Finset.sum_range_add]

lemma pairLoopAux_eq (inp : Nat → Int) (half T : Nat) (hT : 0 < T) :
    ∀ fuel i, half ≤ fuel + i →
      pairLoopAux inp half T fuel i
        = ∑ j in Finset.range half,
            if i ≤ j ∧ (j - i) % T = 0 then inp (2 * j) + inp (2 * j + 1) else 0 := by
  intro fuel
  induction fuel with
  | zero =>
      intro i hi
      rw [pairLoopAux]
      symm
      apply Finset.sum_eq_zero
      intro j hj
      rw [if_neg]
      rintro ⟨hij, -⟩
      have := Finset.mem_range.mp hj
      omega
  | succ fuel ih =>
      intro i hi
      rw [pairLoopAux]
      by_cases hih : i < half
      · rw [if_pos hih, ih (i + T) (by omega)]
        have key : ∀ j ∈ Finset.range half,
            (if i ≤ j ∧ (j - i) % T = 0 then inp (2 * j) + inp (2 * j + 1) else 0)
              = (if j = i then inp (2 * j) + inp (2 * j + 1) else 0)
                + (if i + T ≤ j ∧ (j - (i + T)) % T = 0
                   then inp (2 * j) + inp (2 * j + 1) else 0) := by
          intro j hj
          by_cases hji : j = i
          · subst hji
            rw [if_pos ⟨le_refl j, by simp⟩, if_pos rfl, if_neg]
            · ring
            · rintro ⟨hc, -⟩; omega
          · have hiff : (i ≤ j ∧ (j - i) % T = 0)
                ↔ (i + T ≤ j ∧ (j - (i + T)) % T = 0) := by
              constructor
              · rintro ⟨hle, hmod⟩
                obtain ⟨c, hc⟩ := Nat.dvd_of_mod_eq_zero hmod
                rcases c with - | c
                · simp at hc; omega
                · rw [Nat.mul_succ] at hc
                  generalize hq : T * c = q at hc
                  constructor
                  · omega
                  · rw [show j - (i + T) = q from by omega, ← hq]
                    exact Nat.mul_mod_right T c
              · rintro ⟨hle, hmod⟩
                obtain ⟨c, hc⟩ := Nat.dvd_of_mod_eq_zero hmod
                generalize hq : T * c = q at hc
                constructor
                · omega
                · rw [show j - i = q + T from by omega, ← hq,
                      show T * c + T = T * (c + 1) from by ring]
                  exact Nat.mul_mod_right T (c + 1)
            rw [if_neg hji, zero_add]
            simp only [hiff]
        rw [Finset.sum_congr rfl key, Finset.sum_add_distrib, Finset.sum_ite_eq']
        rw [if_pos (Finset.mem_range.mpr hih)]
      · rw [if_neg hih]
        symm
        apply Finset.sum_eq_zero
        intro j hj
        rw [if_neg]
        rintro ⟨hij, -⟩
        have := Finset.mem_range.mp hj
        omega

lemma strideCover (c : Int) (T j : Nat) (hT : 0 < T) :
    (∑ t in Finset.range T, if t ≤ j ∧ (j - t) % T = 0 then c else 0) = c := by
  rw [Finset.sum_eq_single_of_mem (j % T) (Finset.mem_range.mpr (Nat.mod_lt j hT))]
  · rw [if_pos]
    refine ⟨Nat.mod_le j T, ?_⟩
    rw [Nat.sub_eq_of_eq_add (Nat.div_add_mod j T).symm]
    exact Nat.mul_mod_right T (j / T)
  · intro b hb hbne
    rw [if_neg]
    rintro ⟨hble, hbmod⟩
    apply hbne
    obtain ⟨m, hm⟩ := Nat.dvd_of_mod_eq_zero hbmod
    generalize hq : T * m = q at hm
    rw [show j = b + q from by omega, ← hq, Nat.add_mul_mod_self_left,
        Nat.mod_eq_of_lt (Finset.mem_range.mp hb)]

lemma threadCoverage (inp : Nat → Int) (N T : Nat) (hT : 0 < T) :
    ∑ t in Finset.range T, threadVecSum inp N T t = ∑ i in Finset.range N, inp i := by
  unfold threadVecSum
  rw [Finset.sum_add_distrib]
  have hpair : ∑ t in Finset.range T, pairLoopAux inp (N / 2) T (N / 2) t
      = ∑ j in Finset.range (N / 2), (inp (2 * j) + inp (2 * j + 1)) := by
    have hrw : ∀ t ∈ Finset.range T, pairLoopAux inp (N / 2) T (N / 2) t
        = ∑ j in Finset.range (N / 2),
            if t ≤ j ∧ (j - t) % T = 0 then inp (2 * j) + inp (2 * j + 1) else 0 :=
      fun t _ => pairLoopAux_eq inp (N / 2) T hT (N / 2) t (by omega)
    rw [Finset.sum_congr rfl hrw, Finset.sum_comm]
    apply Finset.sum_congr rfl
    intro j _
    exact strideCover (inp (2 * j) + inp (2 * j + 1)) T j hT
  rw [hpair]
  have hsplit : (∑ j in Finset.range (N / 2), (inp (2 * j) + inp (2 * j + 1)))
      = ∑ i in Finset.range (2 * (N / 2)), inp i := by
    rw [interleave inp (N / 2), Finset.sum_add_distrib]
  rw [hsplit]
  rcases Nat.even_or_odd N with he | ho
  · have he2 : N % 2 = 0 := Nat.even_iff.mp he
    have h2 : 2 * (N / 2) = N := by omega
    have hrem : ∑ t in Finset.range T,
        (if t + N / 2 * 2 < N then inp (t + N / 2 * 2) else 0) = 0 := by
      apply Finset.sum_eq_zero
      intro t _
      rw [if_neg (by omega)]
    rw [h2, hrem, add_zero]
  · obtain ⟨m, hm⟩ := ho
    have hm2 : N / 2 = m := by omega
    rw [hm2]
    have hrem : ∑ t in Finset.range T,
        (if t + m * 2 < N then inp (t + m * 2) else 0) = inp (m * 2) := by
      rw [Finset.sum_eq_single_of_mem 0 (Finset.mem_range.mpr hT)]
      · rw [if_pos (by omega)]
        congr 1
        omega
      · intro b hb hbne
        rw [if_neg (by omega)]
    rw [hrem, show m * 2 = 2 * m from by ring, hm, Finset.sum_range_succ]

lemma blockReduce_thread0 (L : Nat) (p : Nat → Int) (h32 : 32 ∣ L) (hge : 32 ≤ L)
    (hle : L ≤ 1024) :
    blockReduce L p 0 = ∑ t in Finset.range L, p t := by
  obtain ⟨W, hW⟩ := h32
  have hWle : W ≤ 32 := by omega
  have hdiv : L / 32 = W := by omega
  rw [blockReduce]
  simp only [warpSize]
  rw [if_pos (by norm_num)]
  rw [Nat.zero_mod, show min 32 L = 32 from by omega]
  rw [warpReduce_lane0]
  have hsh : ∀ w ∈ Finset.range 32,
      (if w < L / 32 then
        warpReduce (min 32 (L - w * 32)) (fun l => p (w * 32 + l)) 0 else 0)
      = if w ∈ Finset.range W then (∑ l in Finset.range 32, p (w * 32 + l)) else 0 := by
    intro w _
    simp only [Finset.mem_range, hdiv]
    by_cases hw : w < W
    · rw [if_pos hw, if_pos hw, show min 32 (L - w * 32) = 32 from by omega,
          warpReduce_lane0]
    · rw [if_neg hw, if_neg hw]
  rw [Finset.sum_congr rfl hsh, Finset.sum_ite_mem,
      Finset.inter_eq_right.mpr (Finset.range_subset.mpr hWle),
      sum_range_mul_chunks, show W * 32 = L from by omega]

-- ==================== Claim C2 ====================

/-- C2 (amended): `blockReduceAtomicVectorized` over a zero-initialized
output accumulator adds exactly `Σ inp[i]`, `i ∈ [0,N)`, to `*out`, for
every input buffer and every launch configuration whose lanes-per-block
count is a multiple of the warp size (32) and within the hardware block
limit (≤ 1024); in exact (reassociation-free) arithmetic. -/
theorem c2_grid_reduction_sum (inp : Nat → Int) (N B L : Nat) (hB : 0 < B)
    (hdvd : 32 ∣ L) (hge : 32 ≤ L) (hle : L ≤ 1024) :
    blockReduceAtomicVectorized inp N B L = ∑ i in Finset.range N, inp i := by
  rw [blockReduceAtomicVectorized]
  have hbr : ∀ b ∈ Finset.range B,
      blockReduce L (fun t => threadVecSum inp N (B * L) (b * L + t)) 0
        = ∑ t in Finset.range L, threadVecSum inp N (B * L) (b * L + t) :=
    fun b _ => blockReduce_thread0 L _ hdvd hge hle
  rw [Finset.sum_congr rfl hbr, sum_range_mul_chunks (threadVecSum inp N (B * L)) B L]
  exact threadCoverage inp N (B * L) (Nat.mul_pos hB (by omega))

/-- C2 witness: 2 blocks of 32 lanes summing the 5-element all-ones buffer. -/
theorem c2_grid_reduction_sum_witness :
    0 < 2 ∧ 32 ∣ 32 ∧
      blockReduceAtomicVectorized (fun _ => (1 : Int)) 5 2 32 = 5 := by
  refine ⟨by norm_num, by norm_num, ?_⟩
  rw [c2_grid_reduction_sum (fun _ => (1 : Int)) 5 2 32 (by norm_num) (by norm_num)
    (by norm_num) (by norm_num)]
  decide

/-- C2 counterexample: with 1 block of 33 lanes (a legal launch geometry,
not a multiple of the warp size) the partial warp's contribution is dropped
at the `threadIdx.x < blockDim.x / warpSize` read, so summing 66 ones gives
64, not 66. -/
theorem c2_counterexample :
    blockReduceAtomicVectorized (fun _ => (1 : Int)) 66 1 33
      ≠ ∑ i in Finset.range 66, (fun _ => (1 : Int)) i := by
  decide

-- ==================== Tensor offset lemmas ====================

lemma partOffset_cons (dims : List Nat) (d x : Nat) (xs : List Nat) :
    partOffset dims d (x :: xs) = x * (dims.take d).prod + partOffset dims (d + 1) xs := by
  unfold partOffset
  rw [show (x :: xs).length = xs.length + 1 from rfl, Finset.sum_range_succ']
  simp only [List.getD_cons_succ, List.getD_cons_zero]
  rw [add_comm]
  congr 1
  apply Finset.sum_congr rfl
  intro k _
  rw [show d + (k + 1) = d + 1 + k from by omega]

lemma tensorOp_inRange (dims : List Nat) (R : Nat) :
    ∀ (rest : List Nat) (idx d acc : Nat), 1 ≤ d → d + (rest.length + 1) = R →
      R = dims.length →
      (∀ j, j < rest.length + 1 → (idx :: rest).getD j 0 < dims.getD (d + j) 0) →
      tensorOp dims R d acc (idx :: rest)
        = (0, acc + partOffset dims d (idx :: rest),
            acc + partOffset dims d (idx :: rest)) := by
  intro rest
  induction rest with
  | nil =>
      intro idx d acc hd hR hlen hbound
      simp only [List.length_nil, Nat.zero_add] at hR
      have hb := hbound 0 (by norm_num)
      simp only [List.getD_cons_zero, Nat.add_zero] at hb
      simp only [tensorOp]
      rw [if_neg (by omega)]
      have htake : dims.length - 1 = d := by omega
      rw [htake, partOffset_cons]
      simp [partOffset, Nat.mul_comm]
  | cons x xs ih =>
      intro idx d acc hd hR hlen hbound
      have hb := hbound 0 (by norm_num)
      simp only [List.getD_cons_zero, Nat.add_zero] at hb
      simp only [tensorOp]
      rw [if_neg (by omega), if_neg (by omega)]
      have htake : dims.length - (xs.length + 1) - 1 = d := by
        simp only [List.length_cons] at hR
        omega
      rw [htake]
      rw [ih x (d + 1) (acc + (dims.take d).prod * idx) (by omega)
          (by simp only [List.length_cons] at hR ⊢; omega) hlen ?hb2]
      case hb2 =>
        intro j hj
        have := hbound (j + 1) (by simp only [List.length_cons]; omega)
        simp only [List.getD_cons_succ] at this ⊢
        rw [show d + 1 + j = d + (j + 1) from by omega]
        exact this
      rw [partOffset_cons dims d idx (x :: xs)]
      have harith : acc + (List.take d dims).prod * idx + partOffset dims (d + 1) (x :: xs)
          = acc + (idx * (List.take d dims).prod + partOffset dims (d + 1) (x :: xs)) := by
        ring
      rw [harith]

lemma tensorOp_outOfRange (dims : List Nat) (R : Nat) :
    ∀ (rest : List Nat) (idx d acc e : Nat), 1 ≤ d → d + (rest.length + 1) = R →
      R = dims.length → e < rest.length + 1 →
      (∀ j, j < e → (idx :: rest).getD j 0 < dims.getD (d + j) 0) →
      dims.getD (d + e) 0 ≤ (idx :: rest).getD e 0 →
      (tensorOp dims R d acc (idx :: rest)).2.2 = 0 := by
  intro rest
  induction rest with
  | nil =>
      intro idx d acc e hd hR hlen he hpre hfail
      simp only [List.length_nil, Nat.zero_add] at he hR
      have he0 : e = 0 := by omega
      subst he0
      simp only [List.getD_cons_zero, Nat.add_zero] at hfail
      simp only [tensorOp]
      rw [if_pos hfail]
  | cons x xs ih =>
      intro idx d acc e hd hR hlen he hpre hfail
      rcases e with - | e
      · simp only [List.getD_cons_zero, Nat.add_zero] at hfail
        simp only [tensorOp]
        rw [if_pos hfail]
      · have hb := hpre 0 (by omega)
        simp only [List.getD_cons_zero, Nat.add_zero] at hb
        simp only [tensorOp]
        rw [if_neg (by omega), if_neg (by omega)]
        apply ih x (d + 1) _ e (by omega)
          (by simp only [List.length_cons] at hR ⊢; omega) hlen
          (by simp only [List.length_cons] at he; omega)
        · intro j hj
          have := hpre (j + 1) (by omega)
          simp only [List.getD_cons_succ] at this ⊢
          rw [show d + 1 + j = d + (j + 1) from by omega]
          exact this
        · simp only [List.getD_cons_succ] at hfail ⊢
          rw [show d + 1 + e = d + (e + 1) from by omega]
          exact hfail

lemma tensorOp_complete (dims idx : List Nat) (o : Nat)
    (hlen : idx.length = dims.length) (hR : 2 ≤ dims.length)
    (hbound : ∀ j, j < idx.length → idx.getD j 0 < dims.getD j 0) :
    tensorOp dims dims.length 0 o idx
      = (0, colMajorOffset dims idx, colMajorOffset dims idx) := by
  rcases idx with - | ⟨i, - | ⟨x, xs⟩⟩
  · simp only [List.length_nil] at hlen
    omega
  · simp only [List.length_cons, List.length_nil] at hlen
    omega
  · have hb := hbound 0 (by norm_num)
    simp only [List.getD_cons_zero] at hb
    simp only [tensorOp, if_true]
    rw [if_neg (by omega),
        if_neg (by simp only [List.length_cons] at hlen; omega)]
    simp only [Nat.zero_add]
    rw [tensorOp_inRange dims dims.length xs x 1 i (by norm_num)
        (by simp only [List.length_cons] at hlen; omega) rfl ?hb2]
    case hb2 =>
      intro j hj
      have := hbound (j + 1) (by simp only [List.length_cons]; omega)
      simp only [List.getD_cons_succ] at this ⊢
      rw [show 1 + j = j + 1 from by omega]
      exact this
    simp only [colMajorOffset, partOffset_cons]
    simp

-- ==================== Claims C1, C4, C10 ====================

/-- C1 (amended): the variadic accessor returns the element at flat offset
`Σ_d idx[d] * stride[d]` with the column-major strides the source computes,
`stride[d] = Π_{k < d} dims[k]` (stride of the FIRST dimension is 1),
accumulating from the first supplied index. -/
theorem c1_column_major_offset (dims idx : List Nat)
    (hlen : idx.length = dims.length) (hR : 1 ≤ dims.length)
    (hbound : ∀ j, j < idx.length → idx.getD j 0 < dims.getD j 0) :
    (tensorOp dims dims.length 0 0 idx).2.2 = colMajorOffset dims idx ∧
    ∀ (t : Tensor Int dims.length), t.dims = dims →
      t.elemAccess idx = t.data.getD (colMajorOffset dims idx) default := by
  have hoff : (tensorOp dims dims.length 0 0 idx).2.2 = colMajorOffset dims idx := by
    rcases idx with - | ⟨i, - | ⟨x, xs⟩⟩
    · simp only [List.length_nil] at hlen
      omega
    · have hR1 : dims.length = 1 := by
        simp only [List.length_cons, List.length_nil] at hlen
        omega
      have hb := hbound 0 (by norm_num)
      simp only [List.getD_cons_zero] at hb
      simp only [tensorOp]
      rw [if_neg (by omega), hR1]
      simp [colMajorOffset, partOffset]
    · rw [tensorOp_complete dims _ 0 hlen
        (by simp only [List.length_cons] at hlen; omega) hbound]
  refine ⟨hoff, fun t ht => ?_⟩
  rw [Tensor.elemAccess, ht, hoff]

/-- C1 witness: rank 3, dims `[2,3,4]`, indices `(1,2,3)`. -/
theorem c1_column_major_offset_witness :
    (tensorOp [2, 3, 4] 3 0 0 [1, 2, 3]).2.2 = colMajorOffset [2, 3, 4] [1, 2, 3] ∧
    colMajorOffset [2, 3, 4] [1, 2, 3] = 23 := by
  refine ⟨(c1_column_major_offset [2, 3, 4] [1, 2, 3] rfl (by norm_num) (by decide)).1,
    by decide⟩

/-- C1 counterexample: for dims `[2,3,4]` and in-range indices `(1,0,0)` the
source computes flat offset 1 (column-major), not the row-major offset
`1*12 + 0*4 + 0*1 = 12` the claim states. -/
theorem c1_row_major_refuted :
    (tensorOp [2, 3, 4] 3 0 0 [1, 0, 0]).2.2 = 1 ∧
    rowMajorOffset [2, 3, 4] [1, 0, 0] = 12 ∧
    (tensorOp [2, 3, 4] 3 0 0 [1, 0, 0]).2.2 ≠ rowMajorOffset [2, 3, 4] [1, 0, 0] := by
  decide

/-- C4: for a rank-3 Tensor with dims `[2,3,4]`, access `(1,2,3)` returns
the element at flat offset 23 (checked on a buffer whose element at flat
index `n` is `n`). -/
theorem c4_rank3_offset_23 :
    (tensorOp [2, 3, 4] 3 0 0 [1, 2, 3]).2.2 = 23 ∧
    (⟨(List.range 24).map (fun n => (n : Int)), [2, 3, 4]⟩ : Tensor Int 3).elemAccess
      [1, 2, 3] = 23 := by
  decide

/-- C10: after a complete in-range multi-index access on a tensor of rank
`≥ 2`, the counter is back at 0 and the result is independent of the offset
scratch left by any previous complete access (the first variadic call
overwrites `_offset`), so two successive accesses agree with isolation. -/
theorem c10_no_state_leak (dims idx : List Nat) (o : Nat)
    (hlen : idx.length = dims.length) (hR : 2 ≤ dims.length)
    (hbound : ∀ j, j < idx.length → idx.getD j 0 < dims.getD j 0) :
    tensorOp dims dims.length 0 o idx
      = (0, colMajorOffset dims idx, colMajorOffset dims idx) ∧
    (tensorOp dims dims.length 0 ((tensorOp dims dims.length 0 o idx).2.1) idx).2.2
      = (tensorOp dims dims.length 0 o idx).2.2 := by
  have h1 := tensorOp_complete dims idx o hlen hR hbound
  refine ⟨h1, ?_⟩
  rw [h1]
  show (tensorOp dims dims.length 0 (colMajorOffset dims idx) idx).2.2
    = colMajorOffset dims idx
  rw [tensorOp_complete dims idx (colMajorOffset dims idx) hlen hR hbound]

/-- C10 witness: dims `[2,3]`, indices `(1,2)`, stale offset 7 discarded. -/
theorem c10_no_state_leak_witness :
    tensorOp [2, 3] 2 0 7 [1, 2] = (0, 5, 5) := by
  have h := (c10_no_state_leak [2, 3] [1, 2] 7 rfl (by norm_num) (by decide)).1
  have h5 : colMajorOffset [2, 3] [1, 2] = 5 := by decide
  rw [h5] at h
  exact h

-- ==================== Claims C3, C9 ====================

/-- C3 (amended): starting from a freshly constructed tensor, an access with
at least two indices whose count differs from the rank returns the element
at flat offset 0, and an access with the correct count whose first
out-of-range index sits at position `e` returns the element at flat offset
0; but an access that supplies a single index to a tensor of rank ≥ 2 logs
the argument-count error and still returns the element at flat offset
`Π_{k<R-1} dims[k] * idx`, not offset 0. -/
theorem c3_error_fallback (dims idx : List Nat) :
    (2 ≤ idx.length → idx.length ≠ dims.length →
      (tensorOp dims dims.length 0 0 idx).2.2 = 0) ∧
    (idx.length = dims.length →
      ∀ e, e < idx.length → (∀ j, j < e → idx.getD j 0 < dims.getD j 0) →
        dims.getD e 0 ≤ idx.getD e 0 →
        (tensorOp dims dims.length 0 0 idx).2.2 = 0) ∧
    (∀ i, 2 ≤ dims.length → i < dims.getD 0 0 →
      (tensorOp dims dims.length 0 0 [i]).2.2
        = (dims.take (dims.length - 1)).prod * i) := by
  refine ⟨?part1, ?part2, ?part3⟩
  case part1 =>
    intro hlen2 hne
    rcases idx with - | ⟨i, - | ⟨x, xs⟩⟩
    · simp only [List.length_nil] at hlen2
      omega
    · simp only [List.length_cons, List.length_nil] at hlen2
      omega
    · simp only [List.length_cons] at hne
      simp only [tensorOp, if_true]
      by_cases hb : dims.getD 0 0 ≤ i
      · rw [if_pos hb]
      · rw [if_neg hb, if_pos (by omega)]
  case part2 =>
    intro hlen e he hpre hfail
    rcases idx with - | ⟨i, rest⟩
    · simp only [List.length_nil] at he
      omega
    · rcases e with - | e
      · simp only [List.getD_cons_zero] at hfail
        rcases rest with - | ⟨x, xs⟩
        · simp only [tensorOp]
          rw [if_pos hfail]
        · simp only [tensorOp]
          rw [if_pos hfail]
      · rcases rest with - | ⟨x, xs⟩
        · simp only [List.length_cons, List.length_nil] at he
          omega
        · have hb := hpre 0 (by omega)
          simp only [List.getD_cons_zero] at hb
          simp only [List.length_cons] at hlen he
          simp only [tensorOp, if_true]
          rw [if_neg (by omega), if_neg (by omega)]
          simp only [Nat.zero_add]
          apply tensorOp_outOfRange dims dims.length xs x 1 i e (by norm_num)
            (by omega) rfl (by omega)
          · intro j hj
            have := hpre (j + 1) (by omega)
            simp only [List.getD_cons_succ] at this ⊢
            rw [show 1 + j = j + 1 from by omega]
            exact this
          · simp only [List.getD_cons_succ] at hfail ⊢
            rw [show 1 + e = e + 1 from by omega]
            exact hfail
  case part3 =>
    intro i hR2 hb
    simp only [tensorOp]
    rw [if_neg (by omega)]
    simp

/-- C3 witness: dims `[2,3]` — a 3-index access returns offset 0, an access
failing the range check at position 0 returns offset 0, and the single-index
degenerate case returns offset `2*1 = 2`. -/
theorem c3_error_fallback_witness :
    (tensorOp [2, 3] 2 0 0 [1, 1, 1]).2.2 = 0 ∧
    (tensorOp [2, 3] 2 0 0 [5, 0]).2.2 = 0 ∧
    (tensorOp [2, 3] 2 0 0 [1]).2.2 = ([2, 3].take 1).prod * 1 := by
  obtain ⟨h1, h2, h3⟩ := c3_error_fallback [2, 3] [1, 1, 1]
  obtain ⟨-, h2b, -⟩ := c3_error_fallback [2, 3] [5, 0]
  exact ⟨h1 (by norm_num) (by norm_num),
    h2b rfl 0 (by norm_num) (by omega) (by norm_num),
    h3 1 (by norm_num) (by norm_num)⟩

/-- C3 counterexample: on a rank-2 tensor with dims `[2,3]` the invocation
with the single index 1 has the wrong index count, yet it returns the
element at flat offset 2, not the element at flat offset 0. -/
theorem c3_offset_zero_refuted :
    (tensorOp [2, 3] 2 0 0 [1]).2.2 = 2 ∧
    (tensorOp [2, 3] 2 0 0 [1]).2.2 ≠ 0 ∧
    (⟨[10, 11, 12, 13, 14, 15], [2, 3]⟩ : Tensor Int 2).elemAccess [1]
      ≠ ([10, 11, 12, 13, 14, 15] : List Int).getD 0 default := by
  decide

/-- C9: `size(dim)` returns 0 for an out-of-range dimension (after logging;
the catch swallows the exception so nothing propagates) and the stored
dimension size otherwise. -/
theorem c9_size_dimension (α : Type) (R : Nat) (t : Tensor α R) (dim : Nat) :
    (R ≤ dim → t.size dim = 0) ∧ (dim < R → t.size dim = t.dims.getD dim 0) := by
  constructor
  · intro h
    rw [Tensor.size, if_pos h]
  · intro h
    rw [Tensor.size, if_neg (by omega)]

/-- C9 witness: a rank-2 tensor with dims `[5,7]`. -/
theorem c9_size_dimension_witness :
    (⟨[], [5, 7]⟩ : Tensor Int 2).size 3 = 0 ∧
    (⟨[], [5, 7]⟩ : Tensor Int 2).size 1 = 7 := by
  refine ⟨(c9_size_dimension Int 2 ⟨[], [5, 7]⟩ 3).1 (by norm_num), ?_⟩
  rw [(c9_size_dimension Int 2 ⟨[], [5, 7]⟩ 1).2 (by norm_num)]
  decide

-- ==================== Claims C5, C6, C8 ====================

lemma softmax_fold (inp : Nat → Rat) (N : Nat) (f : Rat → Rat) :
    ∀ (T : Nat) (s : Nat → Rat) (j : Nat),
      ((List.range T).foldl (softmaxThread inp N f) s) j
        = if j < T ∧ j < N then f (inp j) / s j else s j := by
  intro T
  induction T with
  | zero =>
      intro s j
      simp
  | succ T ih =>
      intro s j
      rw [List.range_succ, List.foldl_append]
      simp only [List.foldl_cons, List.foldl_nil]
      rw [softmaxThread, ite_apply]
      by_cases hTN : T < N
      · rw [if_pos hTN]
        by_cases hjT : j = T
        · subst hjT
          rw [if_pos rfl, ih s j, if_neg (by omega), if_pos ⟨by omega, hTN⟩]
        · rw [if_neg hjT, ih s j]
          by_cases hj : j < T ∧ j < N
          · rw [if_pos hj, if_pos ⟨by omega, hj.2⟩]
          · rw [if_neg hj, if_neg (fun hcon => hj ⟨by omega, hcon.2⟩)]
      · rw [if_neg hTN, ih s j]
        by_cases hj : j < N
        · by_cases hjT : j < T
          · rw [if_pos ⟨hjT, hj⟩, if_pos ⟨by omega, hj⟩]
          · rw [if_neg (fun hcon => hjT hcon.1), if_neg (by omega)]
        · rw [if_neg (fun hcon => hj hcon.2), if_neg (fun hcon => hj hcon.2)]

/-- C5: provided the launch covers the buffer (`N ≤ T` threads) and `out`
already holds the reduction denominators, after `softmaxKernel` runs,
`out[i] = f(in[i]) / out_old[i]` for every `i < N` (and `f` is an arbitrary
injected transform, exponentiation by default). -/
theorem c5_softmax_postcondition (inp out : Nat → Rat) (N T : Nat) (f : Rat → Rat)
    (hcov : N ≤ T) :
    ∀ i, i < N → softmaxKernel inp out N T f i = f (inp i) / out i := by
  intro i hi
  rw [softmaxKernel, softmax_fold inp N f T out i, if_pos ⟨by omega, hi⟩]

/-- C5 witness: squaring transform on a 3-element buffer with denominator 2
everywhere, 4 threads. -/
theorem c5_softmax_postcondition_witness :
    (3 : Nat) ≤ 4 ∧
    softmaxKernel (fun i => (i : Rat)) (fun _ => 2) 3 4 (fun x => x * x) 1 = 1 / 2 := by
  refine ⟨by norm_num, ?_⟩
  rw [c5_softmax_postcondition (fun i => (i : Rat)) (fun _ => 2) 3 4 (fun x => x * x)
    (by norm_num) 1 (by norm_num)]
  norm_num

/-- C6 at the failing input (4 blocks of 2 lanes, `N = 8`, `data[i] = i`):
first-wave blocks do broadcast their own first element (block 1's elements
2,3 become `data[2] = 2`), but block 3 — beyond the first wave — receives
`data[3*2 - 2*3] = data[0] = 0`, not the value of the block a fixed stride
of `blockDim` earlier (block 1, whose first element is 2) that the source's
own comment prescribes. -/
theorem c6_scatter_source_eval :
    blockScatter (fun j => (j : Int)) 8 4 2 2 = 2 ∧
    blockScatter (fun j => (j : Int)) 8 4 2 3 = 2 ∧
    blockScatter (fun j => (j : Int)) 8 4 2 6 = 0 ∧
    blockScatter (fun j => (j : Int)) 8 4 2 7 = 0 ∧
    ((0 : Int) ≠ 2) := by
  decide

/-- C8: for every vector of per-lane inputs of a full warp, the down-shift
variant leaves the sum of all 32 lanes in lane 0, the xor-butterfly variant
leaves that sum in every lane, and both loops execute `log2(warpSize) = 5`
shuffle steps. -/
theorem c8_warp_reduction (v : Nat → Int) :
    warpReduce 32 v 0 = (∑ l in Finset.range 32, v l) ∧
    (∀ l, l < 32 → warpReduceAll 32 v l = ∑ j in Finset.range 32, v j) ∧
    (shflOffsets (warpSize / 2)).length = Nat.log2 warpSize := by
  refine ⟨warpReduce_lane0 v, fun l hl => warpReduceAll_lane v l hl, ?_⟩
  rw [show (shflOffsets (warpSize / 2)).length = 5 from rfl]
  simp [warpSize, Nat.log2]

/-- C8 witness: lane values `0,…,31` sum to 496 in lane 0 (shift variant)
and in lane 7 (butterfly variant). -/
theorem c8_warp_reduction_witness :
    warpReduce 32 (fun l => (l : Int)) 0 = 496 ∧
    warpReduceAll 32 (fun l => (l : Int)) 7 = 496 := by
  obtain ⟨h1, h2, -⟩ := c8_warp_reduction (fun l => (l : Int))
  refine ⟨?_, ?_⟩
  · rw [h1]
    decide
  · rw [h2 7 (by norm_num)]
    decide

-- ==================== Claim C7 ====================

/-- C7: every construction path establishes the invariant
`buffer.length = product(dims)` and `dims.length = Rank` (expression
construction under the protocol guarantee `size = product(dimSizes)`), the
buffer+dimensions constructor fails on either mismatch, and element writes —
the only mutation the interface exposes — preserve the invariant. -/
theorem c7_construction_invariant :
    (∀ (α : Type) (R : Nat), 1 ≤ R → TensorInv (Tensor.mkDefault α R)) ∧
    (∀ (α : Type) (R : Nat) (z : α) (ds : List Nat) (t : Tensor α R),
      Tensor.fromDims α R z ds = some t → TensorInv t) ∧
    (∀ (α : Type) (R : Nat) (e : TensorExpr α), e.size = e.dimSizes.prod →
      e.dimSizes.length = R → TensorInv (Tensor.fromExpr α R e)) ∧
    (∀ (α : Type) (R : Nat) (ds : List Nat) (d : List α) (t : Tensor α R),
      Tensor.fromData α R ds d = some t → TensorInv t) ∧
    (∀ (α : Type) (R : Nat) (ds : List Nat) (d : List α),
      ¬(ds.length = R ∧ d.length = ds.prod) → Tensor.fromData α R ds d = none) ∧
    (∀ (α : Type) (R : Nat) (t : Tensor α R) (i : Nat) (v : α),
      TensorInv t → TensorInv (t.setFlat i v)) := by
  refine ⟨?def1, ?def2, ?def3, ?def4, ?def5, ?def6⟩
  case def1 =>
    intro α R hR
    rw [Tensor.mkDefault]
    refine ⟨?_, List.length_replicate R 0⟩
    rw [List.prod_replicate]
    simp [zero_pow (by omega : R ≠ 0)]
  case def2 =>
    intro α R z ds t h
    rw [Tensor.fromDims] at h
    by_cases hds : ds.length = R
    · rw [if_pos hds] at h
      cases h
      exact ⟨List.length_replicate ds.prod z, hds⟩
    · rw [if_neg hds] at h
      cases h
  case def3 =>
    intro α R e hsz hdim
    refine ⟨?_, hdim⟩
    rw [Tensor.fromExpr]
    simp [hsz]
  case def4 =>
    intro α R ds d t h
    rw [Tensor.fromData] at h
    by_cases hc : ds.length = R ∧ d.length = ds.prod
    · rw [if_pos hc] at h
      cases h
      exact ⟨hc.2, hc.1⟩
    · rw [if_neg hc] at h
      cases h
  case def5 =>
    intro α R ds d hc
    rw [Tensor.fromData, if_neg hc]
  case def6 =>
    intro α R t i v hinv
    exact ⟨by rw [Tensor.setFlat]; simp [hinv.1], hinv.2⟩

/-- C7 witness: concrete instances of the constructor contracts at rank 1
and 2. -/
theorem c7_construction_invariant_witness :
    TensorInv (Tensor.mkDefault Int 2) ∧
    TensorInv (Tensor.fromExpr Int 1 ⟨2, [2], fun i => (i : Int)⟩) ∧
    Tensor.fromData Int 1 [3] ([1, 2] : List Int) = none := by
  obtain ⟨h1, -, h3, -, h5, -⟩ := c7_construction_invariant
  exact ⟨h1 Int 2 (by norm_num),
    h3 Int 1 ⟨2, [2], fun i => (i : Int)⟩ (by decide) (by decide),
    h5 Int 1 [3] [1, 2] (by rintro ⟨-, h⟩; simp at h)⟩
